import Mathlib

set_option maxRecDepth 100000
set_option exponentiation.threshold 1000000

/-!
Verification of the binary-splitting Chudnovsky π program (Go, `main.go`)
against its natural-language specification.

The Go source is shallowly embedded as follows.

* `big.Int` values are unbounded `Int` (the program only ever multiplies,
  adds, negates, exponentiates and takes `Mod`/division on them, all of
  which `big.Int` performs exactly).  Term indices (`int64`) are likewise
  modelled as `Int`; Go `/` on integers is truncated division, embedded as
  `Int.tdiv`.
* The recursive engine `binarySplit` has no termination guarantee for
  invalid ranges (`b ≤ a` recurses forever), so it is embedded as a
  fuel-indexed function `binarySplitF` returning `Option`; `none` means
  the recursion did not finish within the given fuel.  `binarySplit a b`
  runs it with fuel `(b - a).toNat`, which is proven sufficient for every
  valid range.
* `big.Float` values are binary floating-point numbers with an explicitly
  tracked mantissa, binary exponent and precision (`BigFloat`).  Every
  `big.Float` operation used by the program (`Mul`, `Quo`, `Sqrt`,
  `SetInt`, `SetInt64`, `Text`, `Int`) computes the exact result and
  rounds it to the receiver precision with round-to-nearest, ties to even,
  which is exactly what the embedding implements on raw integers.
* Goroutine scheduling is erased: `parallelBinarySplit` evaluates the two
  concurrent branches as ordinary recursive calls, which is value-faithful
  because both branches are pure and joined before the combination step.
-/

/-- Base case of `binarySplit` (main.go lines 20–36): for the one-term
range `[a, a+1)`, `P = -(6a-1)(2a-1)(6a-5)`, `Q = a^3 * 10939058860032000`
(the source exponentiates first, then multiplies by the constant), and
`R = P * (545140134*a + 13591409)`. -/
def basePQR (a : Int) : Int × Int × Int :=
  let P : Int := -((6 * a - 1) * (2 * a - 1) * (6 * a - 5))
  (P, a ^ 3 * 10939058860032000, P * (545140134 * a + 13591409))

/-- Fuel-indexed embedding of `binarySplit` (main.go lines 19–50).
`none` means the Go recursion would not terminate within `fuel` nested
calls; the source itself performs no range validation. -/
def binarySplitF : Nat → Int → Int → Option (Int × Int × Int)
  | 0, _, _ => none
  | fuel + 1, a, b =>
    if b = a + 1 then
      some (basePQR a)
    else
      let m := (a + b).tdiv 2
      match binarySplitF fuel a m, binarySplitF fuel m b with
      | some (P1, Q1, R1), some (P2, Q2, R2) =>
          some (P1 * P2, Q1 * Q2, Q2 * R1 + P1 * R2)
      | _, _ => none

/-- `binarySplit a b` run with fuel `(b - a).toNat`, which suffices for
every valid range `a < b` (see `binarySplitF_eq_some`). -/
def binarySplit (a b : Int) : Int × Int × Int :=
  (binarySplitF (b - a).toNat a b).getD (0, 0, 0)

/-- The combination rule of the recursive case (main.go lines 43–48):
`(P1,Q1,R1)` from the left half and `(P2,Q2,R2)` from the right half
combine to `(P1*P2, Q1*Q2, Q2*R1 + P1*R2)`. -/
def combineTriple (x y : Int × Int × Int) : Int × Int × Int :=
  (x.1 * y.1, x.2.1 * y.2.1, y.2.1 * x.2.2 + x.1 * y.2.2)

/-- Fuel-indexed embedding of `parallelBinarySplit` (main.go lines 53–105).
Small ranges (width < 1000) and deep recursion (depth > 4) delegate to the
serial engine; otherwise the two halves are evaluated (concurrently in Go,
joined by a WaitGroup before combining) and combined exactly as in the
serial engine. -/
def parallelBinarySplitF : Nat → Int → Int → Int → Option (Int × Int × Int)
  | 0, _, _, _ => none
  | fuel + 1, a, b, depth =>
    if b - a < 1000 ∨ 4 < depth then
      binarySplitF (b - a).toNat a b
    else if b = a + 1 then
      some (basePQR a)
    else
      let m := (a + b).tdiv 2
      match parallelBinarySplitF fuel a m (depth + 1),
            parallelBinarySplitF fuel m b (depth + 1) with
      | some (P1, Q1, R1), some (P2, Q2, R2) =>
          some (P1 * P2, Q1 * Q2, Q2 * R1 + P1 * R2)
      | _, _ => none

/-- `parallelBinarySplit a b depth` run with fuel `(b - a).toNat`. -/
def parallelBinarySplit (a b : Int) (depth : Int) : Int × Int × Int :=
  (parallelBinarySplitF (b - a).toNat a b depth).getD (0, 0, 0)

/-- Specification fold for ranges: `splitSpecW a w` combines the one-term
triples of `[a, a+w)` left-to-right with `combineTriple`; `(1, 1, 0)` is
the neutral triple.  Used to prove that `binarySplit` is independent of
where ranges are cut. -/
def splitSpecW : Int → Nat → Int × Int × Int
  | _, 0 => (1, 1, 0)
  | a, w + 1 => combineTriple (basePQR a) (splitSpecW (a + 1) w)

-- A fueled base-2 logarithm (`Nat.log2` itself is not kernel-reducible).
-- `natLog2 n = ⌊log₂ n⌋` for `n ≥ 1`, and `0` for `n = 0`.  The recursion
-- first descends in 64-bit chunks (to keep the recursion shallow for very
-- large inputs), then scans the remaining value bit by bit; the fuel `n`
-- is at least the number of steps needed in both phases.
def natLog2F : Nat → Nat → Nat
  | 0, _ => 0
  | fuel + 1, n => if n ≤ 1 then 0 else natLog2F fuel (n / 2) + 1

def natLog2Big : Nat → Nat → Nat
  | 0, _ => 0
  | fuel + 1, n =>
    if n < 18446744073709551616 then natLog2F 64 n
    else natLog2Big fuel (n / 18446744073709551616) + 64

def natLog2 (n : Nat) : Nat := natLog2Big n n

-- Exact integer square root by binary digit recurrence: starting from the
-- bit position `natLog2 n / 2` (above the top bit of `⌊√n⌋`), greedily set
-- each bit whose inclusion keeps the square at most `n`.
def isqrtF (n : Nat) : Nat → Nat → Nat
  | 0, r => r
  | i + 1, r =>
    let r2 := r + 2 ^ i
    if r2 * r2 ≤ n then isqrtF n i r2 else isqrtF n i r

def isqrt (n : Nat) : Nat := isqrtF n (natLog2 n / 2 + 1) 0


/-- A `big.Float` value: mantissa `m`, binary exponent `e` (value is
`m * 2^e`) and the precision in bits carried by the value (`Float.Prec`). -/
structure BigFloat where
  m : Int
  e : Int
  prec : Nat
deriving DecidableEq

/-- The exact rational value of a `BigFloat` (for specification only; no
computation is performed on `ℚ`).  One of the two `toNat` exponents is
always `0`, so this equals `m * 2^e`. -/
def BigFloat.val (x : BigFloat) : ℚ :=
  (x.m : ℚ) * 2 ^ x.e.toNat / 2 ^ (-x.e).toNat

/-- Round the nonnegative rational `n / d` to `prec` significant bits,
to nearest with ties to even — the rounding `math/big` applies (mode
`ToNearestEven`) after computing an exact operation result.  Returns the
mantissa and the binary exponent of the rounded value. -/
def roundFrac (prec : Nat) (n d : Nat) : Nat × Int :=
  let e0 : Int := (natLog2 n : Int) - (natLog2 d : Int)
  let e : Int := if d * 2 ^ e0.toNat ≤ n * 2 ^ (-e0).toNat then e0 else e0 - 1
  let s : Int := (prec : Int) - 1 - e
  let N : Nat := n * 2 ^ s.toNat
  let D : Nat := d * 2 ^ (-s).toNat
  let q : Nat := N / D
  let r : Nat := N % D
  let mant : Nat :=
    if 2 * r < D then q else if D < 2 * r then q + 1 else if q % 2 = 0 then q else q + 1
  (mant, e + 1 - prec)

/-- Round the rational `num / den` (any sign of `num`) to `prec` bits,
nearest, ties to even, as a `BigFloat` of precision `prec`. -/
def floatOfFrac (prec : Nat) (num : Int) (den : Nat) : BigFloat :=
  let p := roundFrac prec num.natAbs den
  ⟨if 0 ≤ num then (p.1 : Int) else -(p.1 : Int), p.2, prec⟩

/-- `z.SetPrec(prec).Mul(x, y)`: the exact product rounded to `prec`. -/
def floatMul (prec : Nat) (x y : BigFloat) : BigFloat :=
  let e := x.e + y.e
  floatOfFrac prec (x.m * y.m * ((2 ^ e.toNat : Nat) : Int)) (2 ^ (-e).toNat)

/-- `z.SetPrec(prec).Quo(x, y)`: the exact quotient rounded to `prec`. -/
def floatQuo (prec : Nat) (x y : BigFloat) : BigFloat :=
  let e := x.e - y.e
  floatOfFrac prec (x.m * y.m.sign * ((2 ^ e.toNat : Nat) : Int)) (y.m.natAbs * 2 ^ (-e).toNat)

/-- The correctly rounded (nearest, ties to even) square root of the
nonnegative rational `n / d` at `prec` significant bits: `k` is the exact
integer square root of the value scaled to the result grid `2^(-t)`, and
the exact comparison of `4*(n/d)` with `((2k+1) * 2^(-t))^2` decides
whether to round up. -/
def sqrtFrac (prec : Nat) (n d : Nat) : Nat × Int :=
  let e0 : Int := (natLog2 n : Int) - (natLog2 d : Int)
  let ex : Int := if d * 2 ^ e0.toNat ≤ n * 2 ^ (-e0).toNat then e0 else e0 - 1
  let er : Int := ex / 2
  let t : Int := (prec : Int) - 1 - er
  let X : Nat := n * 4 ^ t.toNat / (d * 4 ^ (-t).toNat)
  let k : Nat := isqrt X
  let lhs : Nat := 4 * (n * 4 ^ t.toNat)
  let rhs : Nat := (2 * k + 1) ^ 2 * (d * 4 ^ (-t).toNat)
  let mant : Nat :=
    if rhs < lhs then k + 1 else if lhs < rhs then k else if k % 2 = 0 then k else k + 1
  (mant, -t)

/-- `z.Sqrt(x)` at `z`'s precision `prec` (main.go line 114): the rounded
square root of `x` (the program only takes `Sqrt` of the positive exact
value 10005). -/
def floatSqrt (prec : Nat) (x : BigFloat) : BigFloat :=
  let p := sqrtFrac prec (x.m.natAbs * 2 ^ x.e.toNat) (2 ^ (-x.e).toNat)
  ⟨(p.1 : Int), p.2, prec⟩

/-- `new(big.Float).SetInt(v)`: exact, with precision `max(bitLen, 64)`. -/
def floatOfInt (v : Int) : BigFloat :=
  ⟨v, 0, max (natLog2 v.natAbs + 1) 64⟩

/-- `new(big.Float).SetPrec(prec).SetInt64(v)`: `v` rounded to `prec`. -/
def floatSetInt (prec : Nat) (v : Int) : BigFloat :=
  floatOfFrac prec v 1

/-- `x.Int(nil)` on the value `m * 2^e`: truncation toward zero. -/
def dyadicTrunc (m e : Int) : Int :=
  (m * ((2 ^ e.toNat : Nat) : Int)).tdiv ((2 ^ (-e).toNat : Nat) : Int)

/-- `chudnovsky` (main.go lines 108–126): serial binary splitting over
`[1, n)`, then assembly of π at `digits * 4` working bits:
`coeff = 426880 * sqrt(10005)`, `num = coeff * Q`,
`den = 13591409 * Q + R` (exact integer), `π = num / den`. -/
def chudnovsky (n : Int) (digits : Nat) : BigFloat :=
  let precBits := digits * 4
  let QR := binarySplit 1 n
  let sqrt10005 := floatSqrt precBits (floatSetInt precBits 10005)
  let coeff := floatMul precBits (floatSetInt precBits 426880) sqrt10005
  let num := floatMul precBits coeff (floatOfInt QR.2.1)
  let den : Int := 13591409 * QR.2.1 + QR.2.2
  floatQuo precBits num (floatOfInt den)

/-- `parallelChudnovsky` (main.go lines 129–147): identical assembly, with
the `(P,Q,R)` triple produced by `parallelBinarySplit(1, n, 0)`. -/
def parallelChudnovsky (n : Int) (digits : Nat) : BigFloat :=
  let precBits := digits * 4
  let QR := parallelBinarySplit 1 n 0
  let sqrt10005 := floatSqrt precBits (floatSetInt precBits 10005)
  let coeff := floatMul precBits (floatSetInt precBits 426880) sqrt10005
  let num := floatMul precBits coeff (floatOfInt QR.2.1)
  let den : Int := 13591409 * QR.2.1 + QR.2.2
  floatQuo precBits num (floatOfInt den)

/-- `workerPoolBinarySplit` (main.go lines 155–159): the worker-pool
variant was abandoned (it deadlocked); the function ignores `numWorkers`
and delegates to `parallelBinarySplit(a, b, 0)`. -/
def workerPoolBinarySplit (a b : Int) (numWorkers : Nat) : Int × Int × Int :=
  parallelBinarySplit a b 0

/-- `optimizedParallelChudnovsky` (main.go lines 162–182): identical
assembly over the triple from `workerPoolBinarySplit(1, n, numCPU)`,
where `numCPU = runtime.NumCPU()` is an external input. -/
def optimizedParallelChudnovsky (numCPU : Nat) (n : Int) (digits : Nat) : BigFloat :=
  let precBits := digits * 4
  let QR := workerPoolBinarySplit 1 n numCPU
  let sqrt10005 := floatSqrt precBits (floatSetInt precBits 10005)
  let coeff := floatMul precBits (floatSetInt precBits 426880) sqrt10005
  let num := floatMul precBits coeff (floatOfInt QR.2.1)
  let den : Int := 13591409 * QR.2.1 + QR.2.2
  floatQuo precBits num (floatOfInt den)

/-- Digit extraction (main.go lines 231–236): `shifter = 10^(d-1)` exactly,
`shifted = pi * shifter` at `pi.Prec()`, truncate to an integer
(`shifted.Int(nil)`), then `Mod 10` (Euclidean, so the result is 0–9). -/
def extractDigit (pi : BigFloat) (d : Nat) : Int :=
  let shifter : Int := 10 ^ (d - 1)
  let shifted := floatMul pi.prec pi (floatOfInt shifter)
  let intPart : Int := dyadicTrunc shifted.m shifted.e
  intPart % 10

/-- The whole success path of `main` (main.go lines 196–236) for digit
position `d`: `digits = d + 100`, `n = d/14 + 100`, π from the optimized
parallel path, then digit extraction. -/
def mainDigit (numCPU : Nat) (d : Nat) : Int :=
  let digits : Nat := d + 100
  let n : Int := ((d / 14 + 100 : Nat) : Int)
  extractDigit (optimizedParallelChudnovsky numCPU n digits) d

-- Decimal digit lists (big-endian characters), fuelled so that the kernel
-- can evaluate them.
def natDigitsRev : Nat → Nat → List Nat
  | 0, _ => []
  | fuel + 1, n => if n = 0 then [] else n % 10 :: natDigitsRev fuel (n / 10)

def natToChars (n : Nat) : List Char :=
  if n = 0 then ['0'] else ((natDigitsRev n n).reverse).map Nat.digitChar

/-- The integer `⌊x * 10^f⌉` (nearest, ties to even) used by
`x.Text('f', f)`: the exact value scaled by `10^f` and rounded to the
nearest integer. -/
def floatTextScaled (x : BigFloat) (f : Nat) : Int :=
  let num : Int := x.m * ((2 ^ x.e.toNat : Nat) : Int) * ((10 ^ f : Nat) : Int)
  let den : Int := ((2 ^ (-x.e).toNat : Nat) : Int)
  let q : Int := num / den
  let r : Int := num % den
  if 2 * r < den then q else if den < 2 * r then q + 1 else if q % 2 = 0 then q else q + 1

/-- `x.Text('f', f)` for the nonnegative float `x`: the rounded scaled
value printed with a decimal point before the last `f` digits. -/
def floatText (x : BigFloat) (f : Nat) : List Char :=
  let mN : Nat := (floatTextScaled x f).toNat
  let ip : Nat := mN / 10 ^ f
  let fp : Nat := mN % 10 ^ f
  let fpChars := natToChars fp
  natToChars ip ++ '.' :: (List.replicate (f - fpChars.length) '0' ++ fpChars)

/-- Go slice `s[i:j]` on an ASCII string modelled as a character list. -/
def goSlice (s : List Char) (i j : Nat) : List Char :=
  (s.drop i).take (j - i)

/-- The context-window logic of `main` (main.go lines 241–261): for
`d ≤ 100000` render `pi` with `contextDigits` fractional digits and, if
the rendered string is longer than `d + 1` characters, produce the two
slices of surrounding digits (5 on each side, clipped); otherwise no
context is produced. -/
def mainContext (pi : BigFloat) (d : Nat) : Option (List Char × List Char) :=
  if d ≤ 100000 then
    let contextDigits : Nat := if d < 50 then d + 10 else 50
    let piStr := floatText pi contextDigits
    if d + 1 < piStr.length then
      let contextStart : Nat := if d < 5 then 0 else d - 5
      let contextEnd : Nat :=
        if piStr.length - 2 < d + 6 then piStr.length - 2 else d + 6
      some (goSlice piStr (contextStart + 1) (d + 1), goSlice piStr (d + 2) (contextEnd + 2))
    else none
  else none


-- ======================================================================
-- Helper lemmas about the splitting engine
-- ======================================================================

theorem tdiv_two_bounds (a b : Int) (hab : 0 ≤ a + b) (h : a + 1 < b) :
    a < (a + b).tdiv 2 ∧ (a + b).tdiv 2 < b := by
  rw [Int.tdiv_eq_ediv hab (by norm_num)]
  omega

theorem tdiv_two_le_left (a b : Int) (h : b ≤ a) : (a + b).tdiv 2 ≤ a := by
  rcases le_or_lt 0 (a + b) with hab | hab
  · rw [Int.tdiv_eq_ediv hab (by norm_num)]
    omega
  · have h1 : (a + b).tdiv 2 = -((-(a + b)).tdiv 2) := by
      rw [Int.neg_tdiv]
      omega
    rw [h1, Int.tdiv_eq_ediv (by omega) (by norm_num)]
    omega

theorem binarySplitF_succ (fuel : Nat) (a b : Int) :
    binarySplitF (fuel + 1) a b =
      if b = a + 1 then some (basePQR a)
      else
        match binarySplitF fuel a ((a + b).tdiv 2), binarySplitF fuel ((a + b).tdiv 2) b with
        | some (P1, Q1, R1), some (P2, Q2, R2) =>
            some (P1 * P2, Q1 * Q2, Q2 * R1 + P1 * R2)
        | _, _ => none := rfl

theorem binarySplitF_stable : ∀ (w : Nat) (a b : Int) (f1 f2 : Nat), 1 ≤ a → a < b →
    (b - a).toNat = w → w ≤ f1 → w ≤ f2 →
    binarySplitF f1 a b = binarySplitF f2 a b ∧ (binarySplitF f1 a b).isSome := by
  intro w
  induction w using Nat.strong_induction_on with
  | _ w ih =>
    intro a b f1 f2 ha hab hw h1 h2
    have hw1 : 1 ≤ w := by omega
    obtain ⟨g1, rfl⟩ : ∃ g, f1 = g + 1 := ⟨f1 - 1, by omega⟩
    obtain ⟨g2, rfl⟩ : ∃ g, f2 = g + 1 := ⟨f2 - 1, by omega⟩
    by_cases hbase : b = a + 1
    · rw [binarySplitF_succ, binarySplitF_succ, if_pos hbase, if_pos hbase]
      exact ⟨rfl, rfl⟩
    · have hrec : a + 1 < b := by omega
      obtain ⟨hm1, hm2⟩ := tdiv_two_bounds a b (by omega) hrec
      set m := (a + b).tdiv 2 with hmdef
      have hw1' : ((m - a).toNat) < w := by omega
      have hw2' : ((b - m).toNat) < w := by omega
      obtain ⟨e1, s1⟩ := ih _ hw1' a m g1 ((m - a).toNat) ha hm1 rfl (by omega) (by omega)
      obtain ⟨e2, s2⟩ := ih _ hw2' m b g1 ((b - m).toNat) (by omega) hm2 rfl (by omega) (by omega)
      obtain ⟨f1', s1'⟩ := ih _ hw1' a m g2 ((m - a).toNat) ha hm1 rfl (by omega) (by omega)
      obtain ⟨f2', s2'⟩ := ih _ hw2' m b g2 ((b - m).toNat) (by omega) hm2 rfl (by omega) (by omega)
      rw [binarySplitF_succ, binarySplitF_succ, if_neg hbase, if_neg hbase]
      rw [← hmdef]
      obtain ⟨⟨t11, t12, t13⟩, ht1⟩ := Option.isSome_iff_exists.mp (e1 ▸ s1)
      obtain ⟨⟨t21, t22, t23⟩, ht2⟩ := Option.isSome_iff_exists.mp (e2 ▸ s2)
      rw [e1, f1', ht1, e2, f2', ht2]
      exact ⟨rfl, rfl⟩

theorem binarySplitF_eq_some (a b : Int) (f : Nat) (ha : 1 ≤ a) (hab : a < b)
    (hf : (b - a).toNat ≤ f) : binarySplitF f a b = some (binarySplit a b) := by
  obtain ⟨heq, hsome⟩ :=
    binarySplitF_stable ((b - a).toNat) a b f ((b - a).toNat) ha hab rfl hf (le_refl _)
  obtain ⟨t, ht⟩ := Option.isSome_iff_exists.mp (heq ▸ hsome)
  rw [binarySplit, ht, heq, ht]
  rfl

theorem binarySplit_base (a : Int) : binarySplit a (a + 1) = basePQR a := by
  have h : (a + 1 - a).toNat = 1 := by omega
  rw [binarySplit, h, binarySplitF_succ, if_pos rfl]
  rfl

theorem binarySplit_rec (a b : Int) (ha : 1 ≤ a) (hab : a + 1 < b) :
    binarySplit a b =
      combineTriple (binarySplit a ((a + b).tdiv 2)) (binarySplit ((a + b).tdiv 2) b) := by
  obtain ⟨hm1, hm2⟩ := tdiv_two_bounds a b (by omega) hab
  set m := (a + b).tdiv 2 with hmdef
  obtain ⟨g, hg⟩ : ∃ g, (b - a).toNat = g + 1 := ⟨(b - a).toNat - 1, by omega⟩
  have h1 : binarySplitF g a m = some (binarySplit a m) :=
    binarySplitF_eq_some a m g ha hm1 (by omega)
  have h2 : binarySplitF g m b = some (binarySplit m b) :=
    binarySplitF_eq_some m b g (by omega) hm2 (by omega)
  rw [binarySplit, hg, binarySplitF_succ, if_neg (by omega), ← hmdef, h1, h2]
  rfl

theorem parallelBinarySplitF_succ (fuel : Nat) (a b depth : Int) :
    parallelBinarySplitF (fuel + 1) a b depth =
      if b - a < 1000 ∨ 4 < depth then
        binarySplitF (b - a).toNat a b
      else if b = a + 1 then
        some (basePQR a)
      else
        match parallelBinarySplitF fuel a ((a + b).tdiv 2) (depth + 1),
              parallelBinarySplitF fuel ((a + b).tdiv 2) b (depth + 1) with
        | some (P1, Q1, R1), some (P2, Q2, R2) =>
            some (P1 * P2, Q1 * Q2, Q2 * R1 + P1 * R2)
        | _, _ => none := rfl

theorem parallelBinarySplitF_eq_some : ∀ (w : Nat) (a b depth : Int) (f : Nat), 1 ≤ a →
    a < b → (b - a).toNat = w → w ≤ f →
    parallelBinarySplitF f a b depth = some (binarySplit a b) := by
  intro w
  induction w using Nat.strong_induction_on with
  | _ w ih =>
    intro a b depth f ha hab hw hf
    obtain ⟨g, rfl⟩ : ∃ g, f = g + 1 := ⟨f - 1, by omega⟩
    rw [parallelBinarySplitF_succ]
    by_cases hdeleg : b - a < 1000 ∨ 4 < depth
    · rw [if_pos hdeleg]
      exact binarySplitF_eq_some a b ((b - a).toNat) ha hab (le_refl _)
    · rw [if_neg hdeleg]
      push_neg at hdeleg
      have hwide : 1000 ≤ b - a := hdeleg.1
      have hbase : ¬(b = a + 1) := by omega
      rw [if_neg hbase]
      have hrec : a + 1 < b := by omega
      obtain ⟨hm1, hm2⟩ := tdiv_two_bounds a b (by omega) hrec
      set m := (a + b).tdiv 2 with hmdef
      have h1 : parallelBinarySplitF g a m (depth + 1) = some (binarySplit a m) :=
        ih ((m - a).toNat) (by omega) a m (depth + 1) g ha hm1 rfl (by omega)
      have h2 : parallelBinarySplitF g m b (depth + 1) = some (binarySplit m b) :=
        ih ((b - m).toNat) (by omega) m b (depth + 1) g (by omega) hm2 rfl (by omega)
      rw [h1, h2, binarySplit_rec a b ha hrec, ← hmdef]
      rfl

theorem combineTriple_assoc (x y z : Int × Int × Int) :
    combineTriple (combineTriple x y) z = combineTriple x (combineTriple y z) := by
  simp only [combineTriple, Prod.mk.injEq]
  refine ⟨by ring, by ring, by ring⟩

theorem combineTriple_one_left (x : Int × Int × Int) : combineTriple (1, 1, 0) x = x := by
  simp [combineTriple]

theorem combineTriple_one_right (x : Int × Int × Int) : combineTriple x (1, 1, 0) = x := by
  simp [combineTriple]

theorem splitSpecW_append : ∀ (w1 w2 : Nat) (a : Int),
    splitSpecW a (w1 + w2) = combineTriple (splitSpecW a w1) (splitSpecW (a + (w1 : Int)) w2) := by
  intro w1
  induction w1 with
  | zero =>
    intro w2 a
    simp [splitSpecW, combineTriple_one_left]
  | succ w1 ih =>
    intro w2 a
    have h1 : w1 + 1 + w2 = (w1 + w2) + 1 := by omega
    rw [h1]
    show combineTriple (basePQR a) (splitSpecW (a + 1) (w1 + w2)) = _
    rw [ih w2 (a + 1), ← combineTriple_assoc]
    have h2 : a + 1 + (w1 : Int) = a + ((w1 + 1 : Nat) : Int) := by push_cast; ring
    rw [h2]
    rfl

theorem binarySplit_eq_splitSpecW : ∀ (w : Nat) (a b : Int), 1 ≤ a → a < b →
    (b - a).toNat = w → binarySplit a b = splitSpecW a w := by
  intro w
  induction w using Nat.strong_induction_on with
  | _ w ih =>
    intro a b ha hab hw
    by_cases hbase : b = a + 1
    · have hw1 : w = 1 := by omega
      subst hbase hw1
      rw [binarySplit_base]
      show basePQR a = combineTriple (basePQR a) (splitSpecW (a + 1) 0)
      rw [show splitSpecW (a + 1) 0 = (1, 1, 0) from rfl, combineTriple_one_right]
    · have hrec : a + 1 < b := by omega
      obtain ⟨hm1, hm2⟩ := tdiv_two_bounds a b (by omega) hrec
      set m := (a + b).tdiv 2 with hmdef
      rw [binarySplit_rec a b ha hrec, ← hmdef]
      rw [ih ((m - a).toNat) (by omega) a m ha hm1 rfl]
      rw [ih ((b - m).toNat) (by omega) m b (by omega) hm2 rfl]
      have hsum : w = (m - a).toNat + (b - m).toNat := by omega
      have hmid : m = a + (((m - a).toNat : Nat) : Int) := by omega
      rw [hsum, splitSpecW_append ((m - a).toNat) ((b - m).toNat) a, ← hmid]

theorem binarySplitF_invalid : ∀ (fuel : Nat) (a b : Int), b ≤ a →
    binarySplitF fuel a b = none := by
  intro fuel
  induction fuel with
  | zero => intro a b _; rfl
  | succ fuel ih =>
    intro a b h
    rw [binarySplitF_succ, if_neg (by omega)]
    rw [ih a ((a + b).tdiv 2) (tdiv_two_le_left a b h)]

theorem binarySplitF_one_base (a : Int) : binarySplitF 1 a (a + 1) = some (basePQR a) := by
  rw [binarySplitF_succ 0 a (a + 1), if_pos rfl]

-- ======================================================================
-- Helper lemmas about decimal rendering (for the context window)
-- ======================================================================

theorem natDigitsRev_len_le : ∀ (fuel n k : Nat), n < 10 ^ k →
    (natDigitsRev fuel n).length ≤ k := by
  intro fuel
  induction fuel with
  | zero => intro n k _; simp [natDigitsRev]
  | succ fuel ih =>
    intro n k h
    by_cases hn : n = 0
    · simp [natDigitsRev, hn]
    · rw [natDigitsRev, if_neg hn]
      have hk : 1 ≤ k := by
        by_contra hk0
        have hk1 : k = 0 := by omega
        rw [hk1, pow_zero] at h
        omega
      obtain ⟨k2, rfl⟩ : ∃ k2, k = k2 + 1 := ⟨k - 1, by omega⟩
      have hlt : n / 10 < 10 ^ k2 := by
        rw [Nat.div_lt_iff_lt_mul (by norm_num)]
        calc n < 10 ^ (k2 + 1) := h
        _ = 10 ^ k2 * 10 := by ring
      have := ih (n / 10) k2 hlt
      simp only [List.length_cons]
      omega

theorem natToChars_len_le (n k : Nat) (h : n < 10 ^ k) (hk : 1 ≤ k) :
    (natToChars n).length ≤ k := by
  rw [natToChars]
  by_cases hn : n = 0
  · simp [hn, hk]
  · rw [if_neg hn]
    simp only [List.length_map, List.length_reverse]
    exact natDigitsRev_len_le n n k h

theorem natToChars_three : natToChars 3 = ['3'] := by decide

theorem floatTextScaled_bounds (x : BigFloat) (f : Nat) (hf : 1 ≤ f)
    (h3 : 3 ≤ x.val) (h4 : x.val < 7 / 2) :
    3 * ((10 ^ f : Nat) : Int) ≤ floatTextScaled x f ∧
      floatTextScaled x f < 4 * ((10 ^ f : Nat) : Int) := by
  have hdenN : 0 < (2 ^ (-x.e).toNat : Nat) := Nat.pos_pow_of_pos _ (by norm_num)
  set den : Int := ((2 ^ (-x.e).toNat : Nat) : Int) with hden
  have hden0 : 0 < den := by rw [hden]; exact_mod_cast hdenN
  set M : Int := x.m * ((2 ^ x.e.toNat : Nat) : Int) with hM
  have hdenQ : (0 : ℚ) < (den : ℚ) := by exact_mod_cast hden0
  have hval : x.val = (M : ℚ) / (den : ℚ) := by
    rw [BigFloat.val, hM, hden]
    push_cast
    ring
  rw [hval] at h3 h4
  rw [le_div_iff₀ hdenQ] at h3
  rw [div_lt_iff₀ hdenQ] at h4
  have h3' : 3 * den ≤ M := by exact_mod_cast h3
  have h4' : 2 * M < 7 * den := by
    have h2M : (2 : ℚ) * M < 7 * den := by linarith
    exact_mod_cast h2M
  set F : Int := ((10 ^ f : Nat) : Int) with hF
  have hF0 : 0 < F := by
    rw [hF]
    have hFN : 0 < (10 ^ f : Nat) := Nat.pos_pow_of_pos _ (by norm_num)
    exact_mod_cast hFN
  have hF10 : 10 ≤ F := by
    rw [hF]
    have h1 : 10 ^ 1 ≤ 10 ^ f := Nat.pow_le_pow_right (by norm_num) hf
    have h10 : (10 : Nat) ≤ 10 ^ f := by simpa using h1
    exact_mod_cast h10
  show 3 * F ≤ floatTextScaled x f ∧ floatTextScaled x f < 4 * F
  have hnum : x.m * ((2 ^ x.e.toNat : Nat) : Int) * F = M * F := by rw [hM]
  rw [floatTextScaled, ← hden, ← hF, hnum]
  set q : Int := M * F / den with hq
  set r : Int := M * F % den with hr
  have hq1 : 3 * F ≤ q := by
    rw [hq, Int.le_ediv_iff_mul_le hden0]
    nlinarith
  have hq2 : 2 * q < 7 * F := by
    have hqden : q * den ≤ M * F := Int.ediv_mul_le (M * F) (by omega)
    nlinarith
  split_ifs <;> omega

theorem floatText_length (x : BigFloat) (f : Nat) (hf : 1 ≤ f)
    (h3 : 3 ≤ x.val) (h4 : x.val < 7 / 2) : (floatText x f).length = f + 2 := by
  obtain ⟨hb1, hb2⟩ := floatTextScaled_bounds x f hf h3 h4
  set FN : Nat := 10 ^ f with hFN
  have hFNpos : 0 < FN := by rw [hFN]; exact Nat.pos_pow_of_pos _ (by norm_num)
  set mN : Nat := (floatTextScaled x f).toNat with hmN
  have hm1 : 3 * FN ≤ mN := by omega
  have hm2 : mN < 4 * FN := by omega
  have hip : mN / FN = 3 := Nat.div_eq_of_lt_le (by omega) (by omega)
  have hfp : mN % FN < FN := Nat.mod_lt _ hFNpos
  have hfpLen : (natToChars (mN % FN)).length ≤ f := by
    refine natToChars_len_le _ f ?_ hf
    rw [← hFN]
    exact hfp
  have hgoal : floatText x f =
      natToChars ((floatTextScaled x f).toNat / 10 ^ f) ++
        '.' :: (List.replicate
            (f - (natToChars ((floatTextScaled x f).toNat % 10 ^ f)).length) '0' ++
          natToChars ((floatTextScaled x f).toNat % 10 ^ f)) := rfl
  rw [hgoal, ← hmN, ← hFN, hip, natToChars_three]
  simp only [List.length_append, List.length_cons, List.length_replicate,
    List.length_singleton, List.length_nil]
  omega

-- ======================================================================
-- Claim theorems
-- ======================================================================

/-- C1: for every range with 1 ≤ a < b and every starting depth, the
parallel scheduler returns exactly the same triple as the serial engine:
`parallelBinarySplit a b depth = binarySplit a b`, regardless of the
1000-width and depth-4 delegation thresholds. -/
theorem parallel_serial_equiv (a b depth : Int) (h1 : 1 ≤ a) (h2 : a < b) :
    parallelBinarySplit a b depth = binarySplit a b := by
  rw [parallelBinarySplit,
    parallelBinarySplitF_eq_some ((b - a).toNat) a b depth ((b - a).toNat) h1 h2 rfl (le_refl _)]
  rfl

theorem parallel_serial_equiv_witness :
    (1 : Int) ≤ 1 ∧ (1 : Int) < 3 ∧ parallelBinarySplit 1 3 0 = binarySplit 1 3 :=
  ⟨by norm_num, by norm_num, parallel_serial_equiv 1 3 0 (by norm_num) (by norm_num)⟩

/-- C2: for every term index a ≥ 1 the base case of the splitting engine
returns exactly `P = -(6a-1)(2a-1)(6a-5)`, `Q = 10939058860032000 * a^3`
and `R = P * (545140134*a + 13591409)` as exact integers; in particular
`split(1, 2)` returns `P = -5`. -/
theorem binarySplit_base_closed_form (a : Int) (h : 1 ≤ a) :
    binarySplit a (a + 1) =
      (-((6 * a - 1) * (2 * a - 1) * (6 * a - 5)),
       10939058860032000 * a ^ 3,
       -((6 * a - 1) * (2 * a - 1) * (6 * a - 5)) * (545140134 * a + 13591409)) ∧
    (binarySplit 1 2).1 = -5 := by
  refine ⟨?_, by decide⟩
  rw [binarySplit_base]
  have hb : basePQR a =
      (-((6 * a - 1) * (2 * a - 1) * (6 * a - 5)), a ^ 3 * 10939058860032000,
        -((6 * a - 1) * (2 * a - 1) * (6 * a - 5)) * (545140134 * a + 13591409)) := rfl
  have hq : a ^ 3 * 10939058860032000 = 10939058860032000 * a ^ 3 := by ring
  rw [hb, hq]

theorem binarySplit_base_closed_form_witness :
    (1 : Int) ≤ 3 ∧
      (binarySplit 3 (3 + 1) =
        (-((6 * 3 - 1) * (2 * 3 - 1) * (6 * 3 - 5)),
         10939058860032000 * 3 ^ 3,
         -((6 * 3 - 1) * (2 * 3 - 1) * (6 * 3 - 5)) * (545140134 * 3 + 13591409)) ∧
       (binarySplit 1 2).1 = -5) :=
  ⟨by norm_num, binarySplit_base_closed_form 3 (by norm_num)⟩

/-- C3: for every range with 1 ≤ a and b > a + 1 the engine splits at the
integer-division midpoint `m = (a+b)/2`, recursively computes the two
sub-triples and returns `(P1*P2, Q1*Q2, Q2*R1 + P1*R2)` — the left `R1`
scaled by the right `Q2` and the right `R2` by the left `P1`. -/
theorem binarySplit_recursive_case (a b : Int) (h1 : 1 ≤ a) (h2 : a + 1 < b) :
    binarySplit a b =
      ((binarySplit a ((a + b) / 2)).1 * (binarySplit ((a + b) / 2) b).1,
       (binarySplit a ((a + b) / 2)).2.1 * (binarySplit ((a + b) / 2) b).2.1,
       (binarySplit ((a + b) / 2) b).2.1 * (binarySplit a ((a + b) / 2)).2.2 +
         (binarySplit a ((a + b) / 2)).1 * (binarySplit ((a + b) / 2) b).2.2) := by
  have hdiv : (a + b).tdiv 2 = (a + b) / 2 := Int.tdiv_eq_ediv (by omega) (by norm_num)
  rw [← hdiv, binarySplit_rec a b h1 h2]
  rfl

theorem binarySplit_recursive_case_witness :
    (1 : Int) ≤ 1 ∧ (1 : Int) + 1 < 4 ∧
      binarySplit 1 4 =
        ((binarySplit 1 ((1 + 4) / 2)).1 * (binarySplit ((1 + 4) / 2) 4).1,
         (binarySplit 1 ((1 + 4) / 2)).2.1 * (binarySplit ((1 + 4) / 2) 4).2.1,
         (binarySplit ((1 + 4) / 2) 4).2.1 * (binarySplit 1 ((1 + 4) / 2)).2.2 +
           (binarySplit 1 ((1 + 4) / 2)).1 * (binarySplit ((1 + 4) / 2) 4).2.2) :=
  ⟨by norm_num, by norm_num, binarySplit_recursive_case 1 4 (by norm_num) (by norm_num)⟩

/-- C4: the split combination is associative over adjacent ranges: for
every 1 ≤ a < m < b, combining `split(a, m)` and `split(m, b)` by
`(P1*P2, Q1*Q2, Q2*R1 + P1*R2)` yields exactly `split(a, b)`, wherever
the cut point m lies. -/
theorem binarySplit_combine_assoc (a m b : Int) (h1 : 1 ≤ a) (h2 : a < m) (h3 : m < b) :
    combineTriple (binarySplit a m) (binarySplit m b) = binarySplit a b := by
  rw [binarySplit_eq_splitSpecW ((m - a).toNat) a m h1 h2 rfl]
  rw [binarySplit_eq_splitSpecW ((b - m).toNat) m b (by omega) h3 rfl]
  rw [binarySplit_eq_splitSpecW ((b - a).toNat) a b h1 (by omega) rfl]
  have hsum : (b - a).toNat = (m - a).toNat + (b - m).toNat := by omega
  have hmid : m = a + (((m - a).toNat : Nat) : Int) := by omega
  rw [hsum, splitSpecW_append ((m - a).toNat) ((b - m).toNat) a, ← hmid]

theorem binarySplit_combine_assoc_witness :
    ((1 : Int) ≤ 1 ∧ (1 : Int) < 5 ∧ (5 : Int) < 10 ∧
      combineTriple (binarySplit 1 5) (binarySplit 5 10) = binarySplit 1 10) ∧
    ((1 : Int) < 3 ∧ (3 : Int) < 10 ∧
      combineTriple (binarySplit 1 3) (binarySplit 3 10) = binarySplit 1 10) :=
  ⟨⟨by norm_num, by norm_num, by norm_num,
      binarySplit_combine_assoc 1 5 10 (by norm_num) (by norm_num) (by norm_num)⟩,
   ⟨by norm_num, by norm_num,
      binarySplit_combine_assoc 1 3 10 (by norm_num) (by norm_num) (by norm_num)⟩⟩

/-- C5 counterexample: the engine does not reject invalid ranges.  For the
invalid range `a = 0 < 1`, `b = 1` the engine happily computes the
base-case triple `(5, 0, 67957045)` instead of signalling an error. -/
theorem binarySplit_no_reject_cex :
    binarySplitF 1 0 1 = some (5, 0, 67957045) := by decide

/-- C5 amended: the engine performs no range validation at all.  An
invalid range with `a < 1` but `b = a + 1` is processed by the base case
and returns a triple, and a range with `b ≤ a` never returns (the
recursion exhausts any fuel bound). -/
theorem binarySplit_invalid_behavior :
    (∀ a : Int, binarySplitF 1 a (a + 1) = some (basePQR a)) ∧
    (∀ (fuel : Nat) (a b : Int), b ≤ a → binarySplitF fuel a b = none) :=
  ⟨binarySplitF_one_base, binarySplitF_invalid⟩

theorem binarySplit_invalid_behavior_witness :
    binarySplitF 5 3 3 = none ∧ binarySplitF 1 0 1 = some (basePQR 0) :=
  ⟨binarySplit_invalid_behavior.2 5 3 3 (by norm_num), binarySplit_invalid_behavior.1 0⟩

/-- C7: for every digit position d ≥ 1, extraction computes the exact
integer shifter `10^(d-1)`, multiplies the π approximation by it at the
approximation's own working precision, truncates to the integer part, and
returns that integer modulo 10 — a value between 0 and 9. -/
theorem extractDigit_spec (pi : BigFloat) (d : Nat) (h : 1 ≤ d) :
    extractDigit pi d =
      dyadicTrunc (floatMul pi.prec pi (floatOfInt (10 ^ (d - 1)))).m
          (floatMul pi.prec pi (floatOfInt (10 ^ (d - 1)))).e % 10 ∧
    0 ≤ extractDigit pi d ∧ extractDigit pi d < 10 := by
  refine ⟨rfl, ?_, ?_⟩
  · exact Int.emod_nonneg _ (by norm_num)
  · exact Int.emod_lt_of_pos _ (by norm_num)

theorem extractDigit_spec_witness :
    1 ≤ 1 ∧ 0 ≤ extractDigit ⟨3, 0, 64⟩ 1 ∧ extractDigit ⟨3, 0, 64⟩ 1 < 10 :=
  ⟨by norm_num, (extractDigit_spec ⟨3, 0, 64⟩ 1 (by norm_num)).2.1,
    (extractDigit_spec ⟨3, 0, 64⟩ 1 (by norm_num)).2.2⟩

/-- C8 counterexample: at the requested position d = 51 ≤ 100000 the
program produces no context window: the rendered string `pi.Text('f', 50)`
has 52 characters, which fails the `len(piStr) > d+1` guard.  The π value
is the one the program actually computes for d = 51
(`digits = 151`, `n = 103`). -/
theorem mainContext_cex_51 :
    51 ≤ 100000 ∧ mainContext (optimizedParallelChudnovsky 8 103 151) 51 = none :=
  ⟨by norm_num, by decide⟩

/-- C8 amended: for any π approximation with value in `[3, 3.5)` the
context window is rendered exactly when the formatted string is longer
than `d + 1` characters, which with the integer part `3` means `d ≤ 50`;
for every `d` with `50 < d ≤ 100000`, and for every `d > 100000`, no
context window is produced. -/
theorem mainContext_isSome_iff (pi : BigFloat) (d : Nat) (h3 : 3 ≤ pi.val)
    (h4 : pi.val < 7 / 2) : (mainContext pi d).isSome = true ↔ d ≤ 50 := by
  simp only [mainContext]
  by_cases hd : d ≤ 100000
  · rw [if_pos hd]
    have hlen : (floatText pi (if d < 50 then d + 10 else 50)).length =
        (if d < 50 then d + 10 else 50) + 2 :=
      floatText_length pi _ (by split_ifs <;> omega) h3 h4
    by_cases hc : d + 1 < (floatText pi (if d < 50 then d + 10 else 50)).length
    · rw [if_pos hc]
      simp only [Option.isSome_some, true_iff]
      rw [hlen] at hc
      split_ifs at hc <;> omega
    · rw [if_neg hc]
      simp only [Option.isSome_none, Bool.false_eq_true, false_iff]
      rw [hlen] at hc
      split_ifs at hc <;> omega
  · rw [if_neg hd]
    simp only [Option.isSome_none, Bool.false_eq_true, false_iff]
    omega

theorem mainContext_isSome_iff_witness :
    3 ≤ BigFloat.val ⟨3, 0, 64⟩ ∧ BigFloat.val ⟨3, 0, 64⟩ < 7 / 2 ∧
      ((mainContext ⟨3, 0, 64⟩ 7).isSome = true ↔ 7 ≤ 50) :=
  ⟨by norm_num [BigFloat.val], by norm_num [BigFloat.val],
    mainContext_isSome_iff ⟨3, 0, 64⟩ 7 (by norm_num [BigFloat.val])
      (by norm_num [BigFloat.val])⟩

theorem mainDigit_cpu_irrel (w d : Nat) : mainDigit w d = mainDigit 0 d := rfl

/-- C9 counterexample: with the derived parameters (`n = 100`,
`digits = 101`, 404 working bits) the program's extraction at d = 1
returns 3 — the units digit of the integer part — not the first
fractional digit 1 claimed by the specification. -/
theorem mainDigit_cex_first : mainDigit 8 1 = 3 ∧ mainDigit 8 1 ≠ 1 := by
  constructor
  · decide
  · decide

/-- C9 amended: the extraction is off by one position: with the derived
parameters `n = d/14 + 100` and `digits = d + 100` at `digits * 4` working
bits, position d yields the (d-1)-th digit of the decimal expansion
counted from the integer part, so d = 1 yields 3 (the integer part),
d = 5 yields 5 and d = 6 yields 9; the spec's expected digits 1, 9, 2
appear at d = 2, 6, 7 instead. -/
theorem mainDigit_off_by_one (numCPU : Nat) :
    (mainDigit numCPU 1 = 3 ∧ mainDigit numCPU 5 = 5 ∧ mainDigit numCPU 6 = 9) ∧
      (mainDigit numCPU 2 = 1 ∧ mainDigit numCPU 6 = 9 ∧ mainDigit numCPU 7 = 2) := by
  refine ⟨⟨?_, ?_, ?_⟩, ?_, ?_, ?_⟩ <;> rw [mainDigit_cpu_irrel] <;> decide

/-- C10: the optimized parallel variant is extensionally the plain
parallel variant: `workerPoolBinarySplit` ignores its `numWorkers`
argument and returns `parallelBinarySplit a b 0`, so
`optimizedParallelChudnovsky` agrees with `parallelChudnovsky` for every
CPU count, every n ≥ 2 and every digits. -/
theorem workerPool_optimized_equiv (numCPU : Nat) (n : Int) (digits : Nat)
    (a b : Int) (w : Nat) (h : 2 ≤ n) :
    workerPoolBinarySplit a b w = parallelBinarySplit a b 0 ∧
      optimizedParallelChudnovsky numCPU n digits = parallelChudnovsky n digits :=
  ⟨rfl, rfl⟩

theorem workerPool_optimized_equiv_witness :
    (2 : Int) ≤ 3 ∧ workerPoolBinarySplit 1 2 5 = parallelBinarySplit 1 2 0 ∧
      optimizedParallelChudnovsky 4 3 7 = parallelChudnovsky 3 7 :=
  ⟨by norm_num, (workerPool_optimized_equiv 4 3 7 1 2 5 (by norm_num)).1,
    (workerPool_optimized_equiv 4 3 7 1 2 5 (by norm_num)).2⟩
